import Mathlib

set_option maxHeartbeats 1600000

/-!
Shallow embedding of the FastfoodNutritionAnalyzer pipeline
(src/data_loader.py, src/translator.py, src/classifier.py, src/database.py)
and proofs about the claims of its specification.

Strings are modelled as `List Char` (with a `String` wrapper where literals
are convenient), machine floats of the chunk computation as exact rationals,
fallible calls to the external translation service as `Option`-valued
functions, and the SQLite table as an explicit list of rows.
-/

/-- Whitespace as recognized by Python's `str.strip` and by the regex class
`\s` on `str` patterns: ASCII whitespace plus the Unicode space characters. -/
def isPySpace (c : Char) : Bool :=
  c = ' ' || c = '\t' || c = '\n' || c = '\r' || c = '\x0b' || c = '\x0c' ||
  c = '\x1c' || c = '\x1d' || c = '\x1e' || c = '\x1f' || c = '\x85' ||
  c = '\xa0' || c = '\u1680' || ('\u2000' ≤ c && c ≤ '\u200a') ||
  c = '\u2028' || c = '\u2029' || c = '\u202f' || c = '\u205f' || c = '\u3000'

/-- Python `str.strip()` with no argument: remove leading and trailing
whitespace. -/
def pyStrip (l : List Char) : List Char :=
  ((l.dropWhile isPySpace).reverse.dropWhile isPySpace).reverse

/-- Worker for `re.sub(r'\s+', ' ', s)`: every maximal whitespace run becomes
one single space.  The flag records whether the previous character was part of
a whitespace run (so the run's space has already been emitted). -/
def collapseAux : Bool → List Char → List Char
  | _, [] => []
  | inRun, c :: rest =>
    if isPySpace c then
      if inRun then collapseAux true rest
      else ' ' :: collapseAux true rest
    else c :: collapseAux false rest

/-- `re.sub(r'\s+', ' ', s)` (data_loader.py line 81). -/
def collapseWs (l : List Char) : List Char := collapseAux false l

/-- The characters removed by data_loader.py line 78: trademark sign,
asterisk, comma. -/
def isRemovedChar (c : Char) : Bool := c = '®' || c = '*' || c = ','

/-- `item_name.replace('®', '').replace('*', '').replace(',', '')`
(data_loader.py line 78). -/
def removeSymbols (l : List Char) : List Char :=
  l.filter (fun c => !isRemovedChar c)

/-- The test of data_loader.py line 74:
`item_name.endswith('"') and not re.search(r'\d+"$', item_name)` — the name
ends with a quote and that quote is not immediately preceded by a digit
(`\d` modelled as the ASCII digits, `Char.isDigit`). -/
def endsQuoteNoDigit (l : List Char) : Bool :=
  match l.reverse with
  | '"' :: rest =>
    match rest with
    | [] => true
    | d :: _ => !d.isDigit
  | _ => false

/-- data_loader.py lines 70-71: if the name starts with a quote, drop it and
strip the remainder. -/
def stripLeadingQuote (l : List Char) : List Char :=
  if l.head? = some '"' then pyStrip l.tail else l

/-- data_loader.py lines 74-75: if the name ends with a quote not preceded by
a digit, drop it and strip the remainder. -/
def stripTrailingQuote (l : List Char) : List Char :=
  if endsQuoteNoDigit l then pyStrip l.dropLast else l

/-- `DataLoader.clean_item_name` (data_loader.py lines 59-83) on character
lists: leading-quote strip, trailing-quote strip, symbol removal plus strip,
whitespace collapse plus strip. -/
def cleanChars (l : List Char) : List Char :=
  pyStrip (collapseWs (pyStrip (removeSymbols (stripTrailingQuote (stripLeadingQuote l)))))

/-- `DataLoader.clean_item_name` on Lean strings. -/
def clean_item_name (s : String) : String := ⟨cleanChars s.data⟩

/-- The cleaning procedure as the specification words it (one definition per
spec step, applied in the spec's order, for comparison with the code's
`cleanChars`): strip exactly one leading quote character if present; strip one
trailing quote character unless it is immediately preceded by a digit; remove
trademark symbol, asterisk, and comma characters anywhere; collapse any run of
whitespace to a single space; trim ends. -/
def cleanIdentifierSpec (l : List Char) : List Char :=
  let s1 := match l with
    | '"' :: rest => rest
    | _ => l
  let s2 := if endsQuoteNoDigit s1 then s1.dropLast else s1
  pyStrip (collapseWs (removeSymbols s2))

/-- `cleanIdentifierSpec` on Lean strings. -/
def clean_identifier_spec (s : String) : String := ⟨cleanIdentifierSpec s.data⟩

/-- Truncation toward zero, Python `int(...)` applied to an exact rational. -/
def truncRat (q : ℚ) : ℤ := if q < 0 then -(⌊-q⌋) else ⌊q⌋

/-- `DataLoader.calculate_chunk_size` (data_loader.py lines 28-57) with the
memory probe and the two CSV reads replaced by their results: `rowCount` rows
in the source, `perRowBytes` bytes for one row
(`pd.read_csv(csv_file, nrows=1).memory_usage(deep=True).sum()`),
`availableBytes` bytes of available memory, and the `memory_fraction`
argument.  Float arithmetic is modelled exactly over `ℚ`. -/
def calculate_chunk_size_loader (rowCount : ℕ) (perRowBytes availableBytes fraction : ℚ) : ℤ :=
  if perRowBytes * rowCount / 2 ^ 30 < availableBytes / 2 ^ 30 then rowCount
  else truncRat (fraction * (availableBytes / 2 ^ 30) * 2 ^ 30 / perRowBytes)

/-- `TranslatorModule.calculate_chunk_size` (translator.py lines 57-74) with
the memory probe and the one-row query replaced by their results.  Unlike the
loader variant it ends with `max(chunk_size, 1)`. -/
def calculate_chunk_size_translator (perRowBytes availableBytes fraction : ℚ) : ℤ :=
  max (truncRat ((fraction * (availableBytes / 2 ^ 30)) / (perRowBytes / 2 ^ 30))) 1

/-- Worker for Python `str.split()` with no argument (translator.py line 87):
the maximal runs of non-whitespace characters, in order.  `cur` holds the
current run, reversed. -/
def pyWordsAux (cur : List Char) : List Char → List (List Char)
  | [] => if cur.isEmpty then [] else [cur.reverse]
  | c :: rest =>
    if isPySpace c then
      if cur.isEmpty then pyWordsAux [] rest else cur.reverse :: pyWordsAux [] rest
    else pyWordsAux (c :: cur) rest

/-- `item.split()` (translator.py line 87). -/
def pySplit (s : String) : List String := (pyWordsAux [] s.data).map (fun w => ⟨w⟩)

/-- `' '.join(translated_words)` (translator.py line 91). -/
def joinSpace (ws : List String) : String := String.intercalate " " ws

/-- A Python comprehension or column-wise `apply` that can raise: the
elements are processed left to right and the first raised exception (`none`)
aborts the whole list. -/
def optionMapList {β γ : Type} (f : β → Option γ) : List β → Option (List γ)
  | [] => some []
  | x :: xs =>
    match f x with
    | none => none
    | some y =>
      match optionMapList f xs with
      | none => none
      | some ys => some (y :: ys)

/-- `TranslatorModule.google_translate_word_by_word` (translator.py lines
76-91).  The external collaborator `self.translator.translate` is the
parameter `g`; a raised exception is modelled as `none`, and the list
comprehension translating the words in order propagates the first failure. -/
def google_translate_word_by_word (g : String → Option String) (item : String) : Option String :=
  (optionMapList g (pySplit item)).map joinSpace

/-- `TranslatorModule.translate_item` (translator.py lines 93-109): exact
lookup in the curated dictionary `dict`, falling back to word-by-word
translation through the collaborator `g`. -/
def translate_item (dict g : String → Option String) (item : String) : Option String :=
  match dict item with
  | some v => some v
  | none => google_translate_word_by_word g item

/-- One row of the `fastfood` table (database.py lines 58-81): `id` is the
integer primary key, text columns are nullable strings, numeric columns are
nullable exact rationals (`none` also stands for a value that
`pd.to_numeric(errors = coerce)` cannot parse). -/
structure Row where
  id : ℕ
  restaurant : Option String
  item : Option String
  calories : Option ℚ
  cal_fat : Option ℚ
  total_fat : Option ℚ
  sat_fat : Option ℚ
  trans_fat : Option ℚ
  cholesterol : Option ℚ
  sodium : Option ℚ
  total_carb : Option ℚ
  fiber : Option ℚ
  sugar : Option ℚ
  protein : Option ℚ
  vit_a : Option ℚ
  vit_c : Option ℚ
  calcium : Option ℚ
  salad : Option String
  item_gr : Option String
  category : Option String
deriving DecidableEq

/-- One row of the source CSV as a pandas chunk sees it: the `item` column
(a missing value reads as NaN, hence `Option`) and the remaining columns,
generic over their count and content. -/
structure SrcRow (α : Type) where
  item : Option String
  rest : List (Option α)
deriving DecidableEq

/-- A source row with no missing value in any column. -/
def rowComplete {α : Type} (r : SrcRow α) : Bool :=
  r.item.isSome && r.rest.all Option.isSome

/-- `DataLoader.drop_nulls` (data_loader.py lines 85-96): `df.dropna()`,
keeping exactly the rows with no missing value. -/
def drop_nulls {α : Type} (rows : List (SrcRow α)) : List (SrcRow α) :=
  rows.filter rowComplete

/-- `chunk['item'].apply(self.clean_item_name)` on one row (data_loader.py
line 127).  A missing item is a float NaN in pandas, on which
`clean_item_name` raises `AttributeError`: modelled as `none`. -/
def cleanItemColumn {α : Type} (r : SrcRow α) : Option (SrcRow α) :=
  match r.item with
  | none => none
  | some s => some ⟨some (clean_item_name s), r.rest⟩

/-- The rows of a pandas chunked read: successive chunks of `n` rows
(`max` with 1 only guards termination; pandas rejects a zero chunk size). -/
def chunksOf {β : Type} (n : ℕ) : List β → List (List β)
  | [] => []
  | x :: xs => ((x :: xs).take (n.max 1)) :: chunksOf n ((x :: xs).drop (n.max 1))
termination_by l => l.length
decreasing_by simp

/-- The body of the chunk loop of `DataLoader.load_csv_to_db` (data_loader.py
lines 125-129): clean the item column (which raises on a missing item), then
drop incomplete rows; the survivors are what `_insert_chunk` appends. -/
def processChunk {α : Type} (chunk : List (SrcRow α)) : Option (List (SrcRow α)) :=
  (optionMapList cleanItemColumn chunk).map drop_nulls

/-- The chunk loop of `DataLoader.load_csv_to_db`: insert the processed
chunks in order; a raised error stops the loop, keeps the rows already
inserted, and makes the whole run fail (the `Bool` is the success flag). -/
def loadCsvChunks {α : Type} : List (List (SrcRow α)) → List (SrcRow α) × Bool
  | [] => ([], true)
  | c :: cs =>
    match processChunk c with
    | none => ([], false)
    | some ins => ((ins ++ (loadCsvChunks cs).1), (loadCsvChunks cs).2)

/-- `DataLoader.load_csv_to_db` (data_loader.py lines 111-134) on a source
of `src` rows read in chunks of `n` rows: the inserted rows and whether the
run succeeded. -/
def load_csv_to_db {α : Type} (n : ℕ) (src : List (SrcRow α)) : List (SrcRow α) × Bool :=
  loadCsvChunks (chunksOf n src)

/-- `chunk['item'].apply(translator.translate_item)` on one row of the
`fastfood` table (database.py line 123), recording the translation in
`item_gr`. -/
def translateRow (dict g : String → Option String) (r : Row) : Option Row :=
  match r.item with
  | none => none
  | some s => (translate_item dict g s).map (fun t => { r with item_gr := some t })

/-- Translating one chunk of the table: the whole-column `apply` computes
every translation before any row is written back, so one failure leaves the
chunk untouched. -/
def translateChunk (dict g : String → Option String) (chunk : List Row) : Option (List Row) :=
  optionMapList (translateRow dict g) chunk

/-- The chunk loop of `Database.populate_item_gr_column` (database.py lines
122-130): write each translated chunk back and commit it; a failure keeps the
chunks already committed, leaves the failing and the following chunks as they
were, and fails the run. -/
def populateItemGrChunks (dict g : String → Option String) : List (List Row) → List Row × Bool
  | [] => ([], true)
  | c :: cs =>
    match translateChunk dict g c with
    | none => ((c :: cs).flatten, false)
    | some c' => ((c' ++ (populateItemGrChunks dict g cs).1), (populateItemGrChunks dict g cs).2)

/-- `Database.populate_item_gr_column` (database.py lines 109-132) on a table
of `db` rows paginated in chunks of `n` rows. -/
def populate_item_gr_column (dict g : String → Option String) (n : ℕ) (db : List Row) : List Row × Bool :=
  populateItemGrChunks dict g (chunksOf n db)

/-- The feature columns of classifier.py line 23, in their order. -/
def features (r : Row) : List (Option ℚ) :=
  [r.calories, r.total_fat, r.sugar, r.total_carb, r.protein, r.calcium, r.fiber]

/-- A row surviving `feature_df.apply(pd.to_numeric).dropna()`
(classifier.py lines 46-47): every feature present and numeric. -/
def hasCompleteFeatures (r : Row) : Bool := (features r).all Option.isSome

/-- The feature vector of a complete row. -/
def featureVec (r : Row) : List ℚ := (features r).map (fun o => o.getD 0)

/-- `self.category_mapping = {0: Side, 1: Dessert, 2: Main}` applied through
`Series.map` (classifier.py lines 25 and 58); an id outside the keys maps to
no value. -/
def category_mapping (n : ℕ) : Option String :=
  if n = 0 then some "Side" else if n = 1 then some "Dessert" else if n = 2 then some "Main" else none

/-- `Classifier.classify_items` (classifier.py lines 27-64) with the sklearn
`StandardScaler` plus `KMeans(random_state = 0).fit_predict` pipeline
abstracted as `labels`, a function from the feature matrix of the complete
rows to one cluster id per row: the id and category of every complete row, in
table order. -/
def classify_items (labels : List (List ℚ) → List ℕ) (db : List Row) : List (ℕ × Option String) :=
  let comp := db.filter hasCompleteFeatures
  (comp.zip (labels (comp.map featureVec))).map (fun p => (p.1.id, category_mapping p.2))

/-- `UPDATE fastfood SET category = ? WHERE id = ?` (database.py line 146). -/
def set_category (db : List Row) (i : ℕ) (c : Option String) : List Row :=
  db.map (fun r => if r.id = i then { r with category := c } else r)

/-- `Database.classify_items_and_add_category` (database.py lines 134-149):
write the category of every classified row back by id. -/
def classify_items_and_add_category (labels : List (List ℚ) → List ℕ) (db : List Row) : List Row :=
  (classify_items labels db).foldl (fun acc p => set_category acc p.1 p.2) db

/-- The per-row update loop applied to a single row: how the fold of
`set_category` acts pointwise. -/
def applyUpdates (ups : List (ℕ × Option String)) (r : Row) : Row :=
  ups.foldl (fun r p => if r.id = p.1 then { r with category := p.2 } else r) r

/-- Squared Euclidean distance of two feature vectors. -/
def sqDist (x y : List ℚ) : ℚ := ((x.zip y).map (fun p => (p.1 - p.2) ^ 2)).sum

/-- Modelled from the spec: the centroid-based partitioning lives in the
external sklearn library, not in this repository, so the spec's description
is embedded: "assign each row to its nearest centroid by Euclidean distance".
`Nearest cs x j` holds when `j` is the least index of a centroid at minimal
distance from `x` (ties broken towards the lowest index, sklearn's rule). -/
def Nearest (cs : List (List ℚ)) (x : List ℚ) (j : ℕ) : Prop :=
  j < cs.length ∧
  (∀ k, k < cs.length → sqDist x (cs.getD j []) ≤ sqDist x (cs.getD k [])) ∧
  (∀ k, k < cs.length → sqDist x (cs.getD k []) = sqDist x (cs.getD j []) → j ≤ k)

/-- Modelled from the spec: one assignment phase — every row of the feature
matrix `xs` is assigned the id of its nearest centroid. -/
def AssignRel (cs : List (List ℚ)) (xs : List (List ℚ)) (a : List ℕ) : Prop :=
  a.length = xs.length ∧
  ∀ i x j, xs.get? i = some x → a.get? i = some j → Nearest cs x j

/-- The rows of `xs` assigned to cluster `j`. -/
def assignedPoints (xs : List (List ℚ)) (a : List ℕ) (j : ℕ) : List (List ℚ) :=
  ((xs.zip a).filter (fun p => p.2 = j)).map Prod.fst

/-- Componentwise sum of feature vectors of dimension `d`. -/
def sumVecs (d : ℕ) (pts : List (List ℚ)) : List ℚ :=
  pts.foldl (fun acc v => acc.zipWith (fun a b => a + b) v) (List.replicate d 0)

/-- Modelled from the spec: "recompute each centroid as the mean of its
assigned rows"; a cluster with no assigned row keeps its centroid (the spec
does not cover that case, and any fixed choice keeps the step a function). -/
def updateCentroids (d : ℕ) (xs : List (List ℚ)) (a : List ℕ) (cs : List (List ℚ)) : List (List ℚ) :=
  (List.range cs.length).map (fun j =>
    let pts := assignedPoints xs a j
    if pts.length = 0 then cs.getD j []
    else (sumVecs d pts).map (fun s => s / pts.length))

/-- State of the clustering iteration: current centroids and the current
per-row cluster-id assignment. -/
structure KState where
  centroids : List (List ℚ)
  assign : List ℕ
deriving DecidableEq

/-- Modelled from the spec: one iteration of "assign each row to its nearest
centroid; recompute each centroid as the mean of its assigned rows", stated
as a relation so that determinism is a theorem rather than a definition. -/
def KStep (d : ℕ) (xs : List (List ℚ)) (s t : KState) : Prop :=
  AssignRel s.centroids xs t.assign ∧
  t.centroids = updateCentroids d xs t.assign s.centroids

/-- Modelled from the spec: `n` iterations of the clustering loop. -/
inductive KRun (d : ℕ) (xs : List (List ℚ)) : ℕ → KState → KState → Prop where
  | refl (s : KState) : KRun d xs 0 s s
  | step {s t u : KState} {n : ℕ} : KStep d xs s t → KRun d xs n t u → KRun d xs (n + 1) s u

/-- The artifact written by `df.to_csv` (database.py line 168): the header
and one line per stored row with the three selected columns. -/
structure ExportFile where
  header : List String
  lines : List (Option String × Option String × Option String)
deriving DecidableEq

/-- `SELECT item, item_gr, category FROM fastfood` (database.py line 164)
followed by `to_csv`: header plus one line per row, in table order. -/
def export_artifact (db : List Row) : ExportFile :=
  ⟨["item", "item_gr", "category"], db.map (fun r => (r.item, r.item_gr, r.category))⟩

/-- `os.remove` (database.py line 160) on a file system modelled as a map
from paths to artifacts. -/
def removeFile (fs : String → Option ExportFile) (path : String) : String → Option ExportFile :=
  fun p => if p = path then none else fs p

/-- Writing a file at a path. -/
def writeFile (fs : String → Option ExportFile) (path : String) (f : ExportFile) :
    String → Option ExportFile :=
  fun p => if p = path then some f else fs p

/-- `Database.export_classification_to_csv` (database.py lines 151-169):
delete any pre-existing file at the configurable `path`, then write the
(item, item_gr, category) dataset there. -/
def export_classification_to_csv (db : List Row) (fs : String → Option ExportFile)
    (path : String) : String → Option ExportFile :=
  writeFile (if (fs path).isSome then removeFile fs path else fs) path (export_artifact db)

/-- Two adjacent characters are not both whitespace. -/
def NoSpaceRun (a b : Char) : Prop := ¬(isPySpace a = true ∧ isPySpace b = true)

/-- The specification's cleaning steps amended as the code forces: each of
the two quote-stripping steps is immediately followed by a whitespace trim
(data_loader.py calls `.strip()` right after each quote removal), and the
symbol-removal step also trims; the remaining steps are the spec's. -/
def cleanIdentifierSpecAmended (l : List Char) : List Char :=
  pyStrip (collapseWs (pyStrip (removeSymbols (stripTrailingQuote (stripLeadingQuote l)))))

theorem isPySpace_blank : isPySpace ' ' = true := by decide

theorem head?_of_initialSegment {l₁ l₂ : List Char} (h : l₁ <+: l₂) {c : Char}
    (hc : l₁.head? = some c) : l₂.head? = some c := by
  obtain ⟨t, rfl⟩ := h
  cases l₁ with
  | nil => simp at hc
  | cons x xs => simpa using hc

theorem head?_dropWhile_false (p : Char → Bool) (l : List Char) {c : Char}
    (h : (l.dropWhile p).head? = some c) : p c = false := by
  induction l with
  | nil => simp [List.dropWhile] at h
  | cons x xs ih =>
    cases hx : p x with
    | true => rw [List.dropWhile_cons, hx] at h; exact ih (by simpa using h)
    | false =>
      rw [List.dropWhile_cons, hx] at h
      simp only [Bool.false_eq_true, if_false, List.head?_cons, Option.some.injEq] at h
      rw [← h]; exact hx

theorem getLast?_rdropWhile_false (p : Char → Bool) (l : List Char) {c : Char}
    (h : (l.rdropWhile p).getLast? = some c) : p c = false := by
  have hne : l.rdropWhile p ≠ [] := by
    intro e; rw [e] at h; simp at h
  have hnot := List.rdropWhile_last_not p l hne
  rw [List.getLast?_eq_getLast_of_ne_nil hne] at h
  have hc : (l.rdropWhile p).getLast hne = c := by simpa using h
  rw [hc] at hnot
  simpa using hnot

theorem pyStrip_eq (l : List Char) :
    pyStrip l = (l.dropWhile isPySpace).rdropWhile isPySpace := rfl

theorem pyStrip_subset {l : List Char} {c : Char} (h : c ∈ pyStrip l) : c ∈ l := by
  rw [pyStrip_eq] at h
  have hpre := List.rdropWhile_prefix isPySpace (l.dropWhile isPySpace)
  exact (List.dropWhile_suffix isPySpace).sublist.subset (hpre.sublist.subset h)

theorem pyStrip_chain {l : List Char} (h : l.Chain' NoSpaceRun) :
    (pyStrip l).Chain' NoSpaceRun := by
  rw [pyStrip_eq]
  have hpre := List.rdropWhile_prefix isPySpace (l.dropWhile isPySpace)
  exact List.Chain'.prefix (h.suffix (List.dropWhile_suffix isPySpace)) hpre

theorem pyStrip_head {l : List Char} {c : Char} (h : (pyStrip l).head? = some c) :
    isPySpace c = false := by
  rw [pyStrip_eq] at h
  have hpre := List.rdropWhile_prefix isPySpace (l.dropWhile isPySpace)
  exact head?_dropWhile_false isPySpace l (head?_of_initialSegment hpre h)

theorem pyStrip_last {l : List Char} {c : Char} (h : (pyStrip l).getLast? = some c) :
    isPySpace c = false := by
  rw [pyStrip_eq] at h
  exact getLast?_rdropWhile_false isPySpace _ h

theorem pyStrip_id {l : List Char}
    (hh : ∀ c, l.head? = some c → isPySpace c = false)
    (hl : ∀ c, l.getLast? = some c → isPySpace c = false) :
    pyStrip l = l := by
  rw [pyStrip_eq]
  have h1 : l.dropWhile isPySpace = l := by
    cases l with
    | nil => rfl
    | cons x xs =>
      rw [List.dropWhile_cons, hh x rfl]
      simp
  rw [h1, List.rdropWhile_eq_self_iff]
  intro hne
  have := hl (l.getLast hne) (List.getLast?_eq_getLast_of_ne_nil hne)
  simp [this]

theorem collapseAux_mem :
    ∀ (l : List Char) (b : Bool) (c : Char),
      c ∈ collapseAux b l → c = ' ' ∨ (c ∈ l ∧ isPySpace c = false) := by
  intro l
  induction l with
  | nil => intro b c hc; simp [collapseAux] at hc
  | cons x xs ih =>
    intro b c hc
    cases hx : isPySpace x with
    | true =>
      cases b with
      | true =>
        simp only [collapseAux, hx, if_true] at hc
        rcases ih true c hc with h1 | ⟨h2, h3⟩
        · exact Or.inl h1
        · exact Or.inr ⟨List.mem_cons_of_mem _ h2, h3⟩
      | false =>
        simp only [collapseAux, hx, if_true] at hc
        rcases List.mem_cons.mp hc with h | h
        · exact Or.inl h
        · rcases ih true c h with h1 | ⟨h2, h3⟩
          · exact Or.inl h1
          · exact Or.inr ⟨List.mem_cons_of_mem _ h2, h3⟩
    | false =>
      simp only [collapseAux, hx, Bool.false_eq_true, if_false] at hc
      rcases List.mem_cons.mp hc with h | h
      · exact Or.inr ⟨by rw [h]; exact List.mem_cons_self x xs, by rwa [h]⟩
      · rcases ih false c h with h1 | ⟨h2, h3⟩
        · exact Or.inl h1
        · exact Or.inr ⟨List.mem_cons_of_mem _ h2, h3⟩

theorem collapseAux_true_head :
    ∀ (l : List Char) (c : Char),
      (collapseAux true l).head? = some c → isPySpace c = false := by
  intro l
  induction l with
  | nil => intro c hc; simp [collapseAux] at hc
  | cons x xs ih =>
    intro c hc
    cases hx : isPySpace x with
    | true =>
      simp only [collapseAux, hx, if_true] at hc
      exact ih c hc
    | false =>
      simp only [collapseAux, hx, Bool.false_eq_true, if_false, List.head?_cons,
        Option.some.injEq] at hc
      rw [← hc]; exact hx

theorem collapseAux_chain :
    ∀ (l : List Char) (b : Bool), (collapseAux b l).Chain' NoSpaceRun := by
  intro l
  induction l with
  | nil => intro b; simp [collapseAux]
  | cons x xs ih =>
    intro b
    cases hx : isPySpace x with
    | true =>
      cases b with
      | true => simpa only [collapseAux, hx, if_true] using ih true
      | false =>
        simp only [collapseAux, hx, if_true, Bool.false_eq_true, if_false]
        rw [List.chain'_cons']
        refine ⟨?_, ih true⟩
        intro y hy
        have : isPySpace y = false := collapseAux_true_head xs y hy
        intro hcon
        rw [this] at hcon
        exact absurd hcon.2 (by simp)
    | false =>
      simp only [collapseAux, hx, Bool.false_eq_true, if_false]
      rw [List.chain'_cons']
      refine ⟨?_, ih false⟩
      intro y _
      intro hcon
      rw [hx] at hcon
      exact absurd hcon.1 (by simp)

theorem collapseAux_id :
    ∀ l : List Char, (∀ c ∈ l, isPySpace c = true → c = ' ') → l.Chain' NoSpaceRun →
      collapseAux false l = l ∧
        ((∀ c, l.head? = some c → isPySpace c = false) → collapseAux true l = l) := by
  intro l
  induction l with
  | nil => intro _ _; exact ⟨rfl, fun _ => rfl⟩
  | cons x xs ih =>
    intro hsp hch
    have hch' : xs.Chain' NoSpaceRun := (List.chain'_cons'.mp hch).2
    have hsp' : ∀ c ∈ xs, isPySpace c = true → c = ' ' :=
      fun c hc => hsp c (List.mem_cons_of_mem _ hc)
    obtain ⟨ih1, ih2⟩ := ih hsp' hch'
    cases hx : isPySpace x with
    | true =>
      have hx' : x = ' ' := hsp x (List.mem_cons_self x xs) hx
      have hxs : ∀ c, xs.head? = some c → isPySpace c = false := by
        intro c hc
        have hr := (List.chain'_cons'.mp hch).1 c hc
        cases hc2 : isPySpace c with
        | true => exact absurd ⟨hx, hc2⟩ hr
        | false => rfl
      constructor
      · simp only [collapseAux, hx, if_true, Bool.false_eq_true, if_false]
        rw [ih2 hxs, hx']
      · intro hhead
        have := hhead x rfl
        rw [hx] at this
        exact absurd this (by simp)
    | false =>
      constructor
      · simp only [collapseAux, hx, Bool.false_eq_true, if_false]
        rw [ih1]
      · intro _
        simp only [collapseAux, hx, Bool.false_eq_true, if_false]
        rw [ih1]

theorem removeSymbols_eq_self {l : List Char} (h : ∀ c ∈ l, isRemovedChar c = false) :
    removeSymbols l = l := by
  rw [removeSymbols, List.filter_eq_self]
  intro c hc
  simp [h c hc]

/-- Everything `cleanChars` outputs is normalized: whitespace appears only as
single interior blanks, the ends are not whitespace, and no removed symbol
survives. -/
theorem cleanChars_normalized (l : List Char) :
    (∀ c ∈ cleanChars l, isPySpace c = true → c = ' ') ∧
    (cleanChars l).Chain' NoSpaceRun ∧
    (∀ c, (cleanChars l).head? = some c → isPySpace c = false) ∧
    (∀ c, (cleanChars l).getLast? = some c → isPySpace c = false) ∧
    (∀ c ∈ cleanChars l, isRemovedChar c = false) := by
  rw [cleanChars]
  set m := pyStrip (removeSymbols (stripTrailingQuote (stripLeadingQuote l))) with hm
  refine ⟨?_, ?_, ?_, ?_, ?_⟩
  · intro c hc hsp
    rcases collapseAux_mem m false c (pyStrip_subset hc) with h1 | ⟨_, h3⟩
    · exact h1
    · exact absurd hsp (by simp [h3])
  · exact pyStrip_chain (collapseAux_chain m false)
  · intro c hc; exact pyStrip_head hc
  · intro c hc; exact pyStrip_last hc
  · intro c hc
    rcases collapseAux_mem m false c (pyStrip_subset hc) with h1 | ⟨h2, _⟩
    · rw [h1]; decide
    · have hmem : c ∈ removeSymbols (stripTrailingQuote (stripLeadingQuote l)) :=
        pyStrip_subset h2
      rw [removeSymbols] at hmem
      have := List.of_mem_filter hmem
      simpa using this

/-- C1, counterexample: `DataLoader.calculate_chunk_size` has no clamp.  With
a positive per-row footprint of 600 bytes, a positive capacity of 1000 bytes,
a 2-row source (so the estimated total of 1200 bytes exceeds capacity) and
the default fraction 1/2, it returns 0, not a chunk size of at least 1. -/
theorem calculate_chunk_size_loader_returns_zero :
    (0 : ℚ) < 600 ∧ (0 : ℚ) < 1000 ∧
      calculate_chunk_size_loader 2 600 1000 (1 / 2) = 0 := by
  refine ⟨by norm_num, by norm_num, ?_⟩
  rw [calculate_chunk_size_loader, if_neg (by norm_num)]
  have h : ((1 : ℚ) / 2 * (1000 / 2 ^ 30) * 2 ^ 30 / 600) = 5 / 6 := by norm_num
  rw [h, truncRat, if_neg (by norm_num)]
  norm_num

/-- C1 (amended): `TranslatorModule.calculate_chunk_size` always returns at
least 1; `DataLoader.calculate_chunk_size` returns the full source row count
when the estimated total size is below available capacity, and otherwise
`floor(fraction * availableBytes / perRowBytes)` without a clamp, which is at
least 1 only under the extra assumption that one row's footprint is at most
the allocated share of capacity (and the source is nonempty). -/
theorem chunk_size_clamped_only_in_translator (rowCount : ℕ)
    (perRowBytes availableBytes fraction : ℚ) :
    1 ≤ calculate_chunk_size_translator perRowBytes availableBytes fraction ∧
    (perRowBytes * rowCount < availableBytes →
      calculate_chunk_size_loader rowCount perRowBytes availableBytes fraction = rowCount) ∧
    (1 ≤ rowCount → 0 < perRowBytes → perRowBytes ≤ fraction * availableBytes →
      1 ≤ calculate_chunk_size_loader rowCount perRowBytes availableBytes fraction) := by
  refine ⟨le_max_right _ 1, ?_, ?_⟩
  · intro hfit
    have hcond : perRowBytes * rowCount / 2 ^ 30 < availableBytes / 2 ^ 30 := by
      rw [div_lt_div_iff (by positivity) (by positivity)]
      exact mul_lt_mul_of_pos_right hfit (by positivity)
    rw [calculate_chunk_size_loader, if_pos hcond]
  · intro h1 h2 h3
    rw [calculate_chunk_size_loader]
    split_ifs with hc
    · exact_mod_cast h1
    · have hval : fraction * (availableBytes / 2 ^ 30) * 2 ^ 30 / perRowBytes
          = fraction * availableBytes / perRowBytes := by
        field_simp
      rw [hval]
      have hge : (1 : ℚ) ≤ fraction * availableBytes / perRowBytes :=
        (one_le_div h2).mpr h3
      rw [truncRat, if_neg (not_lt.mpr (by linarith))]
      exact Int.le_floor.mpr (by exact_mod_cast hge)

theorem chunk_size_clamped_only_in_translator_witness :
    1 ≤ calculate_chunk_size_translator 600 1000 (1 / 2) ∧
    calculate_chunk_size_loader 3 600 2000 (1 / 2) = 3 ∧
    1 ≤ calculate_chunk_size_loader 2 600 (2 * 2 ^ 30) (1 / 2) :=
  ⟨(chunk_size_clamped_only_in_translator 0 600 1000 (1 / 2)).1,
   (chunk_size_clamped_only_in_translator 3 600 2000 (1 / 2)).2.1 (by norm_num),
   (chunk_size_clamped_only_in_translator 2 600 (2 * 2 ^ 30) (1 / 2)).2.2
     (by norm_num) (by norm_num) (by norm_num)⟩

/-- C2, counterexample: identifier cleaning is not idempotent.  Each call
strips at most one leading quote, so cleaning the two-quote name once leaves
one quote that a second cleaning removes. -/
theorem clean_item_name_not_idempotent :
    clean_item_name (clean_item_name "\"\"a") ≠ clean_item_name "\"\"a" ∧
    clean_item_name "\"\"a" = "\"a" ∧
    clean_item_name (clean_item_name "\"\"a") = "a" := by
  refine ⟨by decide, by decide, by decide⟩

/-- C2 (amended): identifier cleaning is idempotent on every string whose
cleaned form does not begin with a quote character and does not end with a
quote character lacking a digit immediately before it; on such output the two
quote-stripping steps are no-ops and the symbol-removal, whitespace-collapse
and trim steps fix their own output. -/
theorem cleanChars_eq_self {r : List Char}
    (hsp : ∀ c ∈ r, isPySpace c = true → c = ' ') (hch : r.Chain' NoSpaceRun)
    (hhd : ∀ c, r.head? = some c → isPySpace c = false)
    (hlast : ∀ c, r.getLast? = some c → isPySpace c = false)
    (hrem : ∀ c ∈ r, isRemovedChar c = false)
    (hq1 : r.head? ≠ some '"') (hq2 : endsQuoteNoDigit r = false) :
    cleanChars r = r := by
  have e1 : stripLeadingQuote r = r := by rw [stripLeadingQuote, if_neg hq1]
  have e2 : stripTrailingQuote r = r := by
    rw [stripTrailingQuote]
    simp only [hq2, Bool.false_eq_true, if_false]
  have e3 : removeSymbols r = r := removeSymbols_eq_self hrem
  have e4 : collapseWs r = r := (collapseAux_id r hsp hch).1
  have e5 : pyStrip r = r := pyStrip_id hhd hlast
  simp only [cleanChars]
  rw [e1, e2, e3, e5, e4, e5]

theorem clean_item_name_idempotent_on_quote_free (s : String)
    (h1 : (clean_item_name s).data.head? ≠ some '"')
    (h2 : endsQuoteNoDigit (clean_item_name s).data = false) :
    clean_item_name (clean_item_name s) = clean_item_name s := by
  obtain ⟨hsp, hch, hhd, hlast, hrem⟩ := cleanChars_normalized s.data
  exact congrArg String.mk (cleanChars_eq_self hsp hch hhd hlast hrem h1 h2)

theorem clean_item_name_idempotent_on_quote_free_witness :
    (clean_item_name "Chicken").data.head? ≠ some '"' ∧
    endsQuoteNoDigit (clean_item_name "Chicken").data = false ∧
    clean_item_name (clean_item_name "Chicken") = clean_item_name "Chicken" :=
  ⟨by decide, by decide,
   clean_item_name_idempotent_on_quote_free "Chicken" (by decide) (by decide)⟩

/-- C3, counterexample: `clean_item_name` does not implement the spec's step
list literally.  On a name whose trailing quote is followed by whitespace the
code's intermediate trim exposes the quote to the trailing-strip step, while
the spec's steps (which trim only at the end) keep it. -/
theorem clean_item_name_differs_from_literal_steps :
    clean_item_name "\"a \" " ≠ clean_identifier_spec "\"a \" " ∧
    clean_item_name "\"a \" " = "a" ∧
    clean_identifier_spec "\"a \" " = "a \"" := by
  refine ⟨by decide, by decide, by decide⟩

/-- C3 (amended): `clean_item_name` implements the spec's steps with each of
the two quote-stripping steps (and the symbol removal) immediately followed
by a whitespace trim, and the four quoted example equalities hold. -/
theorem clean_item_name_steps_and_examples :
    (∀ s : String, clean_item_name s = ⟨cleanIdentifierSpecAmended s.data⟩) ∧
    clean_item_name "6\" Sandwich" = "6\" Sandwich" ∧
    clean_item_name "\"Chicken\"" = "Chicken" ∧
    clean_item_name "Chicken Sandwich®" = "Chicken Sandwich" ∧
    clean_item_name "Spicy Chicken® Sandwich *" = "Spicy Chicken Sandwich" := by
  refine ⟨fun s => rfl, by decide, by decide, by decide, by decide⟩

theorem optionMapList_eq_none_of_mem {β γ : Type} {f : β → Option γ} :
    ∀ {l : List β}, (∃ x ∈ l, f x = none) → optionMapList f l = none := by
  intro l
  induction l with
  | nil => rintro ⟨x, hx, _⟩; cases hx
  | cons y ys ih =>
    rintro ⟨x, hx, hfx⟩
    rcases List.mem_cons.mp hx with rfl | hmem
    · simp [optionMapList, hfx]
    · rw [optionMapList]
      cases hfy : f y with
      | none => rfl
      | some v => rw [ih ⟨x, hmem, hfx⟩]

theorem optionMapList_eq_map_of_isSome {β γ : Type} {f : β → Option γ} (d : γ) :
    ∀ {l : List β}, (∀ x ∈ l, (f x).isSome = true) →
      optionMapList f l = some (l.map (fun x => (f x).getD d)) := by
  intro l
  induction l with
  | nil => intro _; rfl
  | cons y ys ih =>
    intro h
    obtain ⟨v, hv⟩ := Option.isSome_iff_exists.mp (h y (List.mem_cons_self y ys))
    rw [optionMapList, hv, ih (fun x hx => h x (List.mem_cons_of_mem _ hx))]
    simp [hv]

theorem optionMapList_isSome_iff {β γ : Type} {f : β → Option γ} :
    ∀ {l : List β}, (optionMapList f l).isSome = true ↔ ∀ x ∈ l, (f x).isSome = true := by
  intro l
  induction l with
  | nil => simp [optionMapList]
  | cons y ys ih =>
    rw [optionMapList]
    cases hfy : f y with
    | none => simp [hfy]
    | some v =>
      cases hys : optionMapList f ys with
      | none =>
        simp only [Option.isSome_none, Bool.false_eq_true, false_iff]
        intro hall
        have := ih.mpr (fun x hx => hall x (List.mem_cons_of_mem _ hx))
        rw [hys] at this
        cases this
      | some vs =>
        simp only [Option.isSome_some, true_iff]
        intro x hx
        rcases List.mem_cons.mp hx with rfl | hmem
        · simp [hfy]
        · exact (ih.mp (by rw [hys]; rfl)) x hmem

/-- C4: `translate_item` consults the curated dictionary first — on a hit it
returns the curated value and its result does not depend on the external
collaborator at all; on a miss it splits the item on whitespace, translates
every token through the collaborator and rejoins the results with single
spaces. -/
theorem translate_item_dictionary_first (dict g gAlt : String → Option String) (item : String) :
    (∀ v, dict item = some v → translate_item dict g item = some v) ∧
    (dict item ≠ none → translate_item dict g item = translate_item dict gAlt item) ∧
    (dict item = none → (∀ w ∈ pySplit item, (g w).isSome = true) →
      translate_item dict g item =
        some (String.intercalate " " ((pySplit item).map (fun w => (g w).getD "")))) ∧
    (dict item = none →
      translate_item dict g item = (optionMapList g (pySplit item)).map joinSpace) := by
  refine ⟨?_, ?_, ?_, ?_⟩
  · intro v hv
    simp [translate_item, hv]
  · intro hne
    cases hd : dict item with
    | none => exact absurd hd hne
    | some v => simp [translate_item, hd]
  · intro hd hall
    simp [translate_item, hd, google_translate_word_by_word,
      optionMapList_eq_map_of_isSome "" hall, joinSpace]
  · intro hd
    simp [translate_item, hd, google_translate_word_by_word]

theorem translate_item_dictionary_first_witness :
    translate_item (fun s => if s = "a b" then some "v" else none)
      (fun w => some (w ++ w)) "a b" = some "v" ∧
    translate_item (fun s => if s = "a b" then some "v" else none)
      (fun w => some (w ++ w)) "a b" =
      translate_item (fun s => if s = "a b" then some "v" else none)
        (fun _ => some "z") "a b" ∧
    translate_item (fun s => if s = "a b" then some "v" else none)
      (fun w => some (w ++ w)) "c d" =
      some (String.intercalate " "
        ((pySplit "c d").map (fun w => ((fun w => some (w ++ w)) w).getD ""))) :=
  ⟨(translate_item_dictionary_first (fun s => if s = "a b" then some "v" else none)
     (fun w => some (w ++ w)) (fun _ => some "z") "a b").1 "v" (by decide),
   (translate_item_dictionary_first (fun s => if s = "a b" then some "v" else none)
     (fun w => some (w ++ w)) (fun _ => some "z") "a b").2.1 (by decide),
   (translate_item_dictionary_first (fun s => if s = "a b" then some "v" else none)
     (fun w => some (w ++ w)) (fun _ => some "z") "c d").2.2.1 (by decide) (by decide)⟩

/-- C8: `drop_nulls` keeps exactly the rows with no missing value in any
column, never increases the row count, and preserves the relative order of
the survivors (they form a sublist of the input). -/
theorem drop_nulls_exact {α : Type} (rows : List (SrcRow α)) :
    (drop_nulls rows).Sublist rows ∧
    (drop_nulls rows).length ≤ rows.length ∧
    (∀ r ∈ drop_nulls rows, r ∈ rows ∧ rowComplete r = true) ∧
    (∀ r ∈ rows, rowComplete r = true → r ∈ drop_nulls rows) := by
  refine ⟨List.filter_sublist _, (List.filter_sublist _).length_le, ?_, ?_⟩
  · intro r hr
    exact ⟨List.mem_of_mem_filter hr, List.of_mem_filter hr⟩
  · intro r hr hc
    exact List.mem_filter.mpr ⟨hr, hc⟩

theorem drop_nulls_exact_witness :
    (drop_nulls [(⟨some "a", [some 1]⟩ : SrcRow ℚ), ⟨none, []⟩]).length ≤ 2 ∧
    (⟨some "a", [some 1]⟩ : SrcRow ℚ) ∈
      drop_nulls [(⟨some "a", [some 1]⟩ : SrcRow ℚ), ⟨none, []⟩] :=
  ⟨(drop_nulls_exact [(⟨some "a", [some 1]⟩ : SrcRow ℚ), ⟨none, []⟩]).2.1,
   (drop_nulls_exact [(⟨some "a", [some 1]⟩ : SrcRow ℚ), ⟨none, []⟩]).2.2.2
     ⟨some "a", [some 1]⟩ (by simp) (by decide)⟩

theorem chunksOf_flatten {β : Type} (n : ℕ) : ∀ l : List β, (chunksOf n l).flatten = l := by
  have key : ∀ (N : ℕ) (l : List β), l.length ≤ N → (chunksOf n l).flatten = l := by
    intro N
    induction N with
    | zero =>
      intro l hl
      have he : l = [] := List.eq_nil_of_length_eq_zero (Nat.le_zero.mp hl)
      subst he; simp [chunksOf]
    | succ N ih =>
      intro l hl
      cases l with
      | nil => simp [chunksOf]
      | cons x xs =>
        rw [chunksOf]
        simp only [List.flatten_cons]
        rw [ih ((x :: xs).drop (n.max 1)) ?_, List.take_append_drop]
        simp only [List.length_drop, List.length_cons]
        have h1 : 1 ≤ n.max 1 := Nat.le_max_right n 1
        simp only [List.length_cons] at hl
        omega
  intro l
  exact key l.length l le_rfl

theorem loadCsvChunks_flag {α : Type} :
    ∀ cs : List (List (SrcRow α)),
      (loadCsvChunks cs).2 = true ↔ ∀ c ∈ cs, (processChunk c).isSome = true := by
  intro cs
  induction cs with
  | nil => simp [loadCsvChunks]
  | cons c cs ih =>
    cases hc : processChunk c with
    | none =>
      simp only [loadCsvChunks, hc]
      constructor
      · intro h; cases h
      · intro h
        have := h c (List.mem_cons_self c cs)
        rw [hc] at this
        cases this
    | some ins =>
      simp only [loadCsvChunks, hc]
      rw [ih]
      constructor
      · intro h x hx
        rcases List.mem_cons.mp hx with rfl | hmem
        · rw [hc]; rfl
        · exact h x hmem
      · intro h x hx
        exact h x (List.mem_cons_of_mem _ hx)

theorem loadCsvChunks_inserted_complete {α : Type} :
    ∀ cs : List (List (SrcRow α)), ∀ r ∈ (loadCsvChunks cs).1, rowComplete r = true := by
  intro cs
  induction cs with
  | nil => intro r hr; simp [loadCsvChunks] at hr
  | cons c cs ih =>
    intro r hr
    cases hc : processChunk c with
    | none => rw [loadCsvChunks, hc] at hr; cases hr
    | some ins =>
      rw [loadCsvChunks, hc] at hr
      rcases List.mem_append.mp hr with hin | hrest
      · obtain ⟨y, _, hy2⟩ := Option.map_eq_some'.mp hc
        rw [← hy2, drop_nulls] at hin
        exact List.of_mem_filter hin
      · exact ih r hrest

theorem processChunk_isSome_iff {α : Type} (c : List (SrcRow α)) :
    (processChunk c).isSome = true ↔ ∀ r ∈ c, r.item.isSome = true := by
  rw [processChunk, Option.isSome_map', optionMapList_isSome_iff]
  constructor
  · intro h r hr
    have := h r hr
    rw [cleanItemColumn] at this
    cases hi : r.item with
    | none => rw [hi] at this; cases this
    | some s => rfl
  · intro h r hr
    have := h r hr
    rw [cleanItemColumn]
    cases hi : r.item with
    | none => rw [hi] at this; cases this
    | some s => rfl

/-- C9: ingestion cleans the item column before it drops incomplete rows, and
`clean_item_name` is total only on strings, so a source row with a missing
item name makes the whole run fail with an error instead of being silently
filtered out; when every row has an item name the run succeeds, and every
row the run inserts is complete. -/
theorem load_csv_missing_item_fails {α : Type} (n : ℕ) (src : List (SrcRow α)) :
    ((∃ r ∈ src, r.item = none) → (load_csv_to_db n src).2 = false) ∧
    ((∀ r ∈ src, r.item.isSome = true) → (load_csv_to_db n src).2 = true) ∧
    (∀ r ∈ (load_csv_to_db n src).1, rowComplete r = true) := by
  refine ⟨?_, ?_, ?_⟩
  · rintro ⟨r, hr, hnone⟩
    rw [load_csv_to_db]
    cases hflag : (loadCsvChunks (chunksOf n src)).2 with
    | false => rfl
    | true =>
      exfalso
      have hall := (loadCsvChunks_flag (chunksOf n src)).mp hflag
      rw [← chunksOf_flatten n src] at hr
      obtain ⟨c, hc, hrc⟩ := List.mem_flatten.mp hr
      have := (processChunk_isSome_iff c).mp (hall c hc) r hrc
      rw [hnone] at this
      cases this
  · intro hall
    rw [load_csv_to_db]
    apply (loadCsvChunks_flag (chunksOf n src)).mpr
    intro c hc
    apply (processChunk_isSome_iff c).mpr
    intro r hr
    exact hall r (by rw [← chunksOf_flatten n src]; exact List.mem_flatten.mpr ⟨c, hc, hr⟩)
  · intro r hr
    exact loadCsvChunks_inserted_complete (chunksOf n src) r hr

theorem load_csv_missing_item_fails_witness :
    (load_csv_to_db 1 [(⟨some "a", []⟩ : SrcRow ℚ), ⟨none, []⟩]).2 = false ∧
    (load_csv_to_db 1 [(⟨some "a", []⟩ : SrcRow ℚ)]).2 = true :=
  ⟨(load_csv_missing_item_fails 1 [(⟨some "a", []⟩ : SrcRow ℚ), ⟨none, []⟩]).1
     ⟨⟨none, []⟩, by simp, rfl⟩,
   (load_csv_missing_item_fails 1 [(⟨some "a", []⟩ : SrcRow ℚ)]).2.1
     (by intro r hr; simp at hr; rw [hr]; rfl)⟩

/-- C7: a collaborator failure on any token fails the whole item translation
(no silent pass-through of the original text), and the chunk loop of the
enrichment run commits chunk by chunk: every chunk before the first failing
chunk stays durably enriched, while the failing chunk and all following
chunks are left exactly as they were, and the run reports failure. -/
theorem enrichment_fails_chunkwise (dict g : String → Option String) (item : String)
    (pre post : List (List Row)) (c : List Row) :
    (dict item = none → (∃ w ∈ pySplit item, g w = none) →
      translate_item dict g item = none) ∧
    ((∀ cp ∈ pre, (translateChunk dict g cp).isSome = true) →
      translateChunk dict g c = none →
      populateItemGrChunks dict g (pre ++ c :: post) =
        ((pre.map (fun cp => (translateChunk dict g cp).getD [])).flatten ++
          (c :: post).flatten, false)) := by
  constructor
  · intro hd hw
    simp [translate_item, hd, google_translate_word_by_word,
      optionMapList_eq_none_of_mem hw]
  · intro hpre hc
    induction pre with
    | nil =>
      simp only [List.nil_append, List.map_nil, List.flatten_nil]
      rw [populateItemGrChunks, hc]
    | cons p ps ih =>
      obtain ⟨tp, htp⟩ := Option.isSome_iff_exists.mp (hpre p (List.mem_cons_self p ps))
      have ih2 := ih (fun cp hcp => hpre cp (List.mem_cons_of_mem _ hcp))
      simp only [List.cons_append, List.map_cons, List.flatten_cons]
      rw [populateItemGrChunks, htp, ih2]
      simp

theorem enrichment_fails_chunkwise_witness :
    translate_item (fun _ => none)
      (fun w => if w = "bad" then none else some "t") "x bad" = none ∧
    populateItemGrChunks (fun _ => none) (fun w => if w = "bad" then none else some "t")
      ([[⟨1, none, some "x", none, none, none, none, none, none, none, none, none,
          none, none, none, none, none, none, none, none⟩]] ++
        [⟨2, none, some "bad", none, none, none, none, none, none, none, none, none,
          none, none, none, none, none, none, none, none⟩] :: []) =
      (([[(⟨1, none, some "x", none, none, none, none, none, none, none, none, none,
          none, none, none, none, none, none, none, none⟩ : Row)]].map
          (fun cp => (translateChunk (fun _ => none)
            (fun w => if w = "bad" then none else some "t") cp).getD [])).flatten ++
        ([⟨2, none, some "bad", none, none, none, none, none, none, none, none, none,
          none, none, none, none, none, none, none, none⟩] :: []).flatten, false) :=
  ⟨(enrichment_fails_chunkwise (fun _ => none)
      (fun w => if w = "bad" then none else some "t") "x bad" [] []
      []).1 rfl ⟨"bad", by decide, by decide⟩,
   (enrichment_fails_chunkwise (fun _ => none)
      (fun w => if w = "bad" then none else some "t") "x bad"
      [[⟨1, none, some "x", none, none, none, none, none, none, none, none, none,
          none, none, none, none, none, none, none, none⟩]] []
      [⟨2, none, some "bad", none, none, none, none, none, none, none, none, none,
          none, none, none, none, none, none, none, none⟩]).2
      (by intro cp hcp; simp at hcp; rw [hcp]; decide)
      (by decide)⟩

theorem foldl_set_category_eq_map :
    ∀ (ups : List (ℕ × Option String)) (db : List Row),
      ups.foldl (fun acc p => set_category acc p.1 p.2) db = db.map (applyUpdates ups) := by
  intro ups
  induction ups with
  | nil =>
    intro db
    rw [List.foldl_nil]
    have he : applyUpdates ([] : List (ℕ × Option String)) = fun r => r := rfl
    rw [he]
    exact (List.map_id' db).symm
  | cons u us ih =>
    intro db
    simp only [List.foldl_cons]
    rw [ih (set_category db u.1 u.2), set_category, List.map_map]
    rfl

theorem applyUpdates_of_not_mem :
    ∀ (ups : List (ℕ × Option String)) (r : Row),
      (∀ p ∈ ups, r.id ≠ p.1) → applyUpdates ups r = r := by
  intro ups
  induction ups with
  | nil => intro r _; rfl
  | cons u us ih =>
    intro r h
    rw [applyUpdates, List.foldl_cons, if_neg (h u (List.mem_cons_self u us))]
    exact ih r (fun p hp => h p (List.mem_cons_of_mem _ hp))

theorem applyUpdates_category_erase :
    ∀ (ups : List (ℕ × Option String)) (r : Row),
      { applyUpdates ups r with category := none } = { r with category := none } := by
  intro ups
  induction ups with
  | nil => intro r; rfl
  | cons u us ih =>
    intro r
    rw [applyUpdates, List.foldl_cons]
    by_cases h : r.id = u.1
    · rw [if_pos h]
      exact ih { r with category := u.2 }
    · rw [if_neg h]
      exact ih r

theorem classify_items_ids (labels : List (List ℚ) → List ℕ) (db : List Row) :
    ∀ p ∈ classify_items labels db, ∃ r ∈ db.filter hasCompleteFeatures, p.1 = r.id := by
  intro p hp
  simp only [classify_items] at hp
  obtain ⟨⟨r, lbl⟩, hmem, hpe⟩ := List.mem_map.mp hp
  exact ⟨r, (List.mem_zip hmem).1, by rw [← hpe]⟩

/-- C5: a classification run writes a value into the category column only for
rows whose seven-feature vector is complete and numeric; a row with a missing
or unparsable feature stays in storage completely unchanged, and even for
classified rows every column other than category is left as it was. -/
theorem classification_only_touches_complete_rows (labels : List (List ℚ) → List ℕ)
    (db : List Row) (hids : (db.map Row.id).Nodup) :
    (classify_items_and_add_category labels db).length = db.length ∧
    (∀ i r, db.get? i = some r → hasCompleteFeatures r = false →
      (classify_items_and_add_category labels db).get? i = some r) ∧
    (∀ i r r2, db.get? i = some r →
      (classify_items_and_add_category labels db).get? i = some r2 →
      { r2 with category := none } = { r with category := none }) := by
  have hrw : classify_items_and_add_category labels db
      = db.map (applyUpdates (classify_items labels db)) :=
    foldl_set_category_eq_map (classify_items labels db) db
  refine ⟨by rw [hrw, List.length_map], ?_, ?_⟩
  · intro i r hget hinc
    rw [hrw, List.get?_map, hget, Option.map_some']
    have hid : applyUpdates (classify_items labels db) r = r := by
      apply applyUpdates_of_not_mem
      intro p hp hEq
      obtain ⟨r2, hr2mem, hpid⟩ := classify_items_ids labels db p hp
      have hr2db : r2 ∈ db := List.mem_of_mem_filter hr2mem
      have hr2c : hasCompleteFeatures r2 = true := List.of_mem_filter hr2mem
      have hrdb : r ∈ db := List.get?_mem hget
      have hrr : r = r2 :=
        List.inj_on_of_nodup_map hids hrdb hr2db (by rw [hEq, hpid])
      rw [hrr, hr2c] at hinc
      cases hinc
    rw [hid]
  · intro i r r2 hget hget2
    rw [hrw, List.get?_map, hget, Option.map_some'] at hget2
    have he : r2 = applyUpdates (classify_items labels db) r :=
      (Option.some.inj hget2).symm
    rw [he]
    exact applyUpdates_category_erase _ r

theorem classification_only_touches_complete_rows_witness :
    (classify_items_and_add_category (fun _ => [0])
      [⟨1, none, none, some 1, none, some 1, none, none, none, none, some 1, some 1,
        some 1, some 1, none, none, some 1, none, none, none⟩,
       ⟨2, none, none, none, none, none, none, none, none, none, none, none,
        none, none, none, none, none, none, none, none⟩]).length = 2 ∧
    (classify_items_and_add_category (fun _ => [0])
      [⟨1, none, none, some 1, none, some 1, none, none, none, none, some 1, some 1,
        some 1, some 1, none, none, some 1, none, none, none⟩,
       ⟨2, none, none, none, none, none, none, none, none, none, none, none,
        none, none, none, none, none, none, none, none⟩]).get? 1 =
      some ⟨2, none, none, none, none, none, none, none, none, none, none, none,
        none, none, none, none, none, none, none, none⟩ :=
  ⟨(classification_only_touches_complete_rows (fun _ => [0])
      [⟨1, none, none, some 1, none, some 1, none, none, none, none, some 1, some 1,
        some 1, some 1, none, none, some 1, none, none, none⟩,
       ⟨2, none, none, none, none, none, none, none, none, none, none, none,
        none, none, none, none, none, none, none, none⟩] (by decide)).1,
   (classification_only_touches_complete_rows (fun _ => [0])
      [⟨1, none, none, some 1, none, some 1, none, none, none, none, some 1, some 1,
        some 1, some 1, none, none, some 1, none, none, none⟩,
       ⟨2, none, none, none, none, none, none, none, none, none, none, none,
        none, none, none, none, none, none, none, none⟩] (by decide)).2.1 1
      ⟨2, none, none, none, none, none, none, none, none, none, none, none,
        none, none, none, none, none, none, none, none⟩ rfl (by decide)⟩

/-- C10: the export writes the flat (item, item_gr, category) dataset with
one line per stored row to the configurable destination path, replacing any
pre-existing artifact there and touching no other path. -/
theorem export_writes_flat_dataset (db : List Row) (fs : String → Option ExportFile)
    (path : String) :
    export_classification_to_csv db fs path path = some (export_artifact db) ∧
    (∀ q, q ≠ path → export_classification_to_csv db fs path q = fs q) ∧
    (export_artifact db).header = ["item", "item_gr", "category"] ∧
    (export_artifact db).lines.length = db.length ∧
    (∀ i r, db.get? i = some r →
      (export_artifact db).lines.get? i = some (r.item, r.item_gr, r.category)) := by
  refine ⟨?_, ?_, rfl, by simp [export_artifact], ?_⟩
  · rw [export_classification_to_csv, writeFile]
    simp
  · intro q hq
    rw [export_classification_to_csv, writeFile]
    simp only [hq, if_false]
    split_ifs with hex
    · rw [removeFile, if_neg hq]
    · rfl
  · intro i r h
    show (db.map fun r => (r.item, r.item_gr, r.category)).get? i = _
    rw [List.get?_map, h, Option.map_some']

theorem export_writes_flat_dataset_witness :
    export_classification_to_csv
      [⟨1, none, some "a", none, none, none, none, none, none, none, none, none,
        none, none, none, none, none, none, some "b", some "Main"⟩]
      (fun p => if p = "data/food_categories.csv" then some ⟨["old"], []⟩ else none)
      "data/food_categories.csv" "data/food_categories.csv" =
      some (export_artifact
        [⟨1, none, some "a", none, none, none, none, none, none, none, none, none,
          none, none, none, none, none, none, some "b", some "Main"⟩]) ∧
    export_classification_to_csv
      [⟨1, none, some "a", none, none, none, none, none, none, none, none, none,
        none, none, none, none, none, none, some "b", some "Main"⟩]
      (fun p => if p = "data/food_categories.csv" then some ⟨["old"], []⟩ else none)
      "data/food_categories.csv" "other.csv" =
      (fun p => if p = "data/food_categories.csv" then some ⟨["old"], []⟩ else none)
        "other.csv" :=
  ⟨(export_writes_flat_dataset
      [⟨1, none, some "a", none, none, none, none, none, none, none, none, none,
        none, none, none, none, none, none, some "b", some "Main"⟩]
      (fun p => if p = "data/food_categories.csv" then some ⟨["old"], []⟩ else none)
      "data/food_categories.csv").1,
   (export_writes_flat_dataset
      [⟨1, none, some "a", none, none, none, none, none, none, none, none, none,
        none, none, none, none, none, none, some "b", some "Main"⟩]
      (fun p => if p = "data/food_categories.csv" then some ⟨["old"], []⟩ else none)
      "data/food_categories.csv").2.1 "other.csv" (by decide)⟩

theorem nearest_unique {cs : List (List ℚ)} {x : List ℚ} {j j' : ℕ}
    (h : Nearest cs x j) (h' : Nearest cs x j') : j = j' := by
  obtain ⟨hj, hmin, hleast⟩ := h
  obtain ⟨hj', hmin', hleast'⟩ := h'
  have e1 : sqDist x (cs.getD j' []) = sqDist x (cs.getD j []) :=
    le_antisymm (hmin' j hj) (hmin j' hj')
  exact le_antisymm (hleast j' hj' e1) (hleast' j hj e1.symm)

theorem assignRel_unique {cs xs : List (List ℚ)} {a a' : List ℕ}
    (h : AssignRel cs xs a) (h' : AssignRel cs xs a') : a = a' := by
  obtain ⟨hl, hp⟩ := h
  obtain ⟨hl', hp'⟩ := h'
  apply List.ext_get?
  intro i
  cases hx : xs.get? i with
  | none =>
    have hxi : xs.length ≤ i := List.get?_eq_none.mp hx
    rw [List.get?_eq_none.mpr (hl ▸ hxi), List.get?_eq_none.mpr (hl' ▸ hxi)]
  | some x =>
    have hxi : i < xs.length := by
      by_contra hcon
      rw [List.get?_eq_none.mpr (Nat.le_of_not_lt hcon)] at hx
      cases hx
    obtain ⟨j, hj⟩ : ∃ j, a.get? i = some j := by
      cases haj : a.get? i with
      | none => exact absurd (List.get?_eq_none.mp haj) (Nat.not_le.mpr (hl ▸ hxi))
      | some j => exact ⟨j, rfl⟩
    obtain ⟨j', hj'⟩ : ∃ j', a'.get? i = some j' := by
      cases haj : a'.get? i with
      | none => exact absurd (List.get?_eq_none.mp haj) (Nat.not_le.mpr (hl' ▸ hxi))
      | some j => exact ⟨j, rfl⟩
    rw [hj, hj']
    exact congrArg some (nearest_unique (hp i x j hx hj) (hp' i x j' hx hj'))

theorem kstep_unique {d : ℕ} {xs : List (List ℚ)} {s t t' : KState}
    (h : KStep d xs s t) (h' : KStep d xs s t') : t = t' := by
  obtain ⟨ha, hc⟩ := h
  obtain ⟨ha', hc'⟩ := h'
  have e : t.assign = t'.assign := assignRel_unique ha ha'
  cases t with
  | mk tc ta =>
    cases t' with
    | mk tc' ta' =>
      simp only at e hc hc'
      subst e
      rw [hc, hc']

theorem krun_unique {d : ℕ} {xs : List (List ℚ)} :
    ∀ {n : ℕ} {s o1 o2 : KState},
      KRun d xs n s o1 → KRun d xs n s o2 → o1 = o2 := by
  intro n
  induction n with
  | zero =>
    intro s o1 o2 h1 h2
    cases h1
    cases h2
    rfl
  | succ n ih =>
    intro s o1 o2 h1 h2
    cases h1 with
    | step hs1 hr1 =>
      cases h2 with
      | step hs2 hr2 =>
        have e := kstep_unique hs1 hs2
        subst e
        exact ih hr1 hr2

/-- C6: the clustering iteration is deterministic — the sklearn internals are
not part of this repository, so the spec's algorithm (deterministic
seed-derived initial centroids, nearest-centroid assignment with a
deterministic tie-break, mean recomputation, iterate) is embedded as a step
relation, and two runs of the same length from the same seed-derived initial
state over the same feature matrix reach the same state: the cluster-id
assignment, and hence the category label of every row of any table classified
with those assignments, is identical across runs. -/
theorem kmeans_fixed_seed_deterministic (d : ℕ) (xs : List (List ℚ))
    (init : ℕ → KState) (seed n : ℕ) (out1 out2 : KState)
    (h1 : KRun d xs n (init seed) out1) (h2 : KRun d xs n (init seed) out2) :
    out1.assign = out2.assign ∧ out1 = out2 ∧
    ∀ db : List Row,
      classify_items (fun _ => out1.assign) db = classify_items (fun _ => out2.assign) db := by
  have e : out1 = out2 := krun_unique h1 h2
  exact ⟨by rw [e], e, fun db => by rw [e]⟩

theorem kmeans_fixed_seed_deterministic_witness :
    (KState.mk [[0], [1]] []).assign = (KState.mk [[0], [1]] []).assign ∧
    KState.mk [[0], [1]] [] = KState.mk [[0], [1]] [] ∧
    ∀ db : List Row,
      classify_items (fun _ => (KState.mk [[0], [1]] []).assign) db =
        classify_items (fun _ => (KState.mk [[0], [1]] []).assign) db :=
  kmeans_fixed_seed_deterministic 1 [[0], [1]] (fun _ => KState.mk [[0], [1]] []) 7 0
    (KState.mk [[0], [1]] []) (KState.mk [[0], [1]] [])
    (KRun.refl (KState.mk [[0], [1]] [])) (KRun.refl (KState.mk [[0], [1]] []))
